import Mathlib

/-!
Verification development for the Wuddle update-reconciliation engine
(`wuddle-engine`).  The definitions below are shallow embeddings of the
Rust source: pure functions are translated directly, stateful code
(SQLite tables, the in-process release cache, the filesystem) is modelled
as explicit state passed through the functions, and external components
(the `regex` engine, the `url` parser, the HTTP backends, the deployment
phase of the installer) are abstracted as function parameters so that
theorems quantify over every possible behaviour of those components.
Rust `i64` is modelled as `Int`, `u64`/sizes as `Nat`.  Rust string
operations that are Unicode-aware (`trim`, `to_lowercase`) coincide on
the ASCII data this program manipulates with the ASCII-level functions
used here.
-/

namespace Wuddle

/-- ASCII lowercase of one character (Rust `to_ascii_lowercase`). -/
def asciiLowerChar (c : Char) : Char :=
  if 'A' ≤ c ∧ c ≤ 'Z' then Char.ofNat (c.toNat + 32) else c

/-- ASCII lowercase of a string (Rust `str::to_ascii_lowercase`; also used
for `str::to_lowercase`, which coincides with it on ASCII input). -/
def asciiLower (s : String) : String :=
  String.mk (s.data.map asciiLowerChar)

/-- Rust `str::eq_ignore_ascii_case`. -/
def eqIgnoreAsciiCase (a b : String) : Bool :=
  asciiLower a == asciiLower b

/-- Whitespace as recognised by Rust `char::is_whitespace` restricted to
ASCII (the only whitespace occurring in the engine's data). -/
def isWsChar (c : Char) : Bool :=
  c = ' ' || c = '\t' || c = '\n' || c = '\r'

/-- Rust `str::trim` (ASCII scope). -/
def rustTrim (s : String) : String :=
  String.mk (((s.data.dropWhile isWsChar).reverse.dropWhile isWsChar).reverse)

/-- `pattern.isPreOf text`: list-level prefix test. -/
def isPreOf : List Char → List Char → Bool
  | [], _ => true
  | _ :: _, [] => false
  | c :: p, d :: t => c = d && isPreOf p t

/-- Rust `str::starts_with`. -/
def strStartsWith (s p : String) : Bool :=
  isPreOf p.data s.data

/-- Rust `str::ends_with`. -/
def strEndsWith (s p : String) : Bool :=
  isPreOf p.data.reverse s.data.reverse

/-- Drop an exact prefix from a character list, if present
(Rust `str::strip_prefix`). -/
def dropPre : List Char → List Char → Option (List Char)
  | [], s => some s
  | _ :: _, [] => none
  | c :: p, d :: t => if c = d then dropPre p t else none

/-! ### Data model (`model.rs`) -/

/-- `InstallMode` (model.rs). -/
inductive InstallMode
  | Auto
  | Addon
  | AddonGit
  | Dll
  | Mixed
  | Raw
deriving DecidableEq, Repr

/-- `InstallMode::as_str` (model.rs). -/
def InstallMode.as_str : InstallMode → String
  | .Auto => "auto"
  | .Addon => "addon"
  | .AddonGit => "addon_git"
  | .Dll => "dll"
  | .Mixed => "mixed"
  | .Raw => "raw"

/-- `InstallMode::from_str` (model.rs): lowercases, then recognises the
fixed set of mode names (with two extra aliases for addon-git). -/
def InstallMode.from_str (s : String) : Option InstallMode :=
  let l := asciiLower s
  if l == "auto" then some .Auto
  else if l == "addon" then some .Addon
  else if l == "addon_git" || l == "addongit" || l == "git_addon" then some .AddonGit
  else if l == "dll" then some .Dll
  else if l == "mixed" then some .Mixed
  else if l == "raw" then some .Raw
  else none

/-- `Repo` (model.rs): one tracked project. -/
structure Repo where
  id : Int
  url : String
  forge : String
  host : String
  owner : String
  name : String
  mode : InstallMode
  enabled : Bool
  git_branch : Option String
  asset_regex : Option String
  last_version : Option String
  etag : Option String
  installed_asset_id : Option String
  installed_asset_name : Option String
  installed_asset_size : Option Int
  installed_asset_url : Option String
deriving DecidableEq, Repr

/-- `ReleaseAsset` (model.rs). -/
structure ReleaseAsset where
  id : Option String
  name : String
  download_url : String
  size : Option Nat
  content_type : Option String
  sha256 : Option String
deriving DecidableEq, Repr

/-- `LatestRelease` (model.rs). -/
structure LatestRelease where
  tag : String
  name : Option String
  assets : List ReleaseAsset
deriving DecidableEq, Repr

/-- `UpdatePlan` (lib.rs). -/
structure UpdatePlan where
  repo_id : Int
  forge : String
  host : String
  owner : String
  name : String
  url : String
  mode : InstallMode
  current : Option String
  latest : String
  asset_id : String
  asset_name : String
  asset_url : String
  asset_size : Option Nat
  asset_sha256 : Option String
  repair_needed : Bool
  not_modified : Bool
  applied : Bool
  error : Option String
deriving DecidableEq, Repr

/-- `ForgeKind` (forge/mod.rs). -/
inductive ForgeKind
  | GitHub
  | GitLab
  | Gitea
deriving DecidableEq, Repr

/-! ### Version-label extraction (lib.rs, `Engine::version_from_asset_name`)

`version_from_asset_name` runs the concrete regular expression
`(?i)\bv?\d+(?:[._]\d+){1,3}(?:[-+][0-9A-Za-z.-]+)?\b` over the asset
name and takes the first (leftmost) match.  The regex is hand-compiled
here into an explicit matcher with the `regex` crate's leftmost-first
semantics: positions are tried left to right; `v?`, `\d+`, the `{1,3}`
repetition and the optional `[-+][0-9A-Za-z.-]+` suffix are greedy with
backtracking; `\b` is a word boundary with word characters
`[0-9A-Za-z_]` (the ASCII restriction of Unicode `\w`). -/

/-- Regex word character (`\w` restricted to ASCII): letters, digits, `_`. -/
def isWordChar (c : Char) : Bool :=
  c.isAlphanum || c = '_'

/-- Character class `[0-9A-Za-z.-]` of the optional version suffix. -/
def isSuffixChar (c : Char) : Bool :=
  c.isAlphanum || c = '.' || c = '-'

/-- Split a maximal run of ASCII digits (`\d+`, greedy) off the front. -/
def takeDigits : List Char → List Char × List Char
  | [] => ([], [])
  | c :: cs =>
    if c.isDigit then
      let (d, r) := takeDigits cs
      (c :: d, r)
    else ([], c :: cs)

/-- `\b` between the last matched character and the rest of the input
(end of input counts as a non-word character). -/
def boundaryOk (last : Char) (rest : List Char) : Bool :=
  match rest with
  | [] => isWordChar last
  | c :: _ => isWordChar last != isWordChar c

/-- Backtrack a greedy run (given reversed) one character at a time until
the trailing `\b` holds; `none` once the run is exhausted. -/
def shrinkToBoundary : List Char → List Char → Option (List Char × List Char)
  | [], _ => none
  | c :: accRev, rest =>
    if boundaryOk c rest then some ((c :: accRev).reverse, rest)
    else shrinkToBoundary accRev (c :: rest)

/-- Try the optional greedy suffix `(?:[-+][0-9A-Za-z.-]+)?` followed by
`\b`; returns the consumed characters and the remaining input. -/
def trySuffix : List Char → Option (List Char × List Char)
  | [] => none
  | c :: rs =>
    if c = '-' ∨ c = '+' then
      let run := rs.takeWhile isSuffixChar
      let rem := rs.dropWhile isSuffixChar
      match shrinkToBoundary run.reverse rem with
      | some (body, rest) => some (c :: body, rest)
      | none => none
    else none

/-- Finish the match after the digit groups: greedy optional suffix first,
else the empty alternative followed by `\b`. -/
def tryFinish (last : Char) (rest : List Char) : Option (List Char × List Char) :=
  match trySuffix rest with
  | some (sfx, rest) => some (sfx, rest)
  | none => if boundaryOk last rest then some ([], rest) else none

/-- Greedy `(?:[._]\d+){0,n}` followed by the suffix and trailing `\b`,
with backtracking over the repetition count. -/
def tryReps (last : Char) (rest : List Char) : Nat → Option (List Char × List Char)
  | 0 => tryFinish last rest
  | n + 1 =>
    match rest with
    | sep :: rs =>
      if sep = '.' ∨ sep = '_' then
        match rs with
        | d :: _ =>
          if d.isDigit then
            let (ds, rs2) := takeDigits rs
            match tryReps (ds.getLastD d) rs2 n with
            | some (m, rest2) => some (sep :: (ds ++ m), rest2)
            | none => tryFinish last rest
          else tryFinish last rest
        | [] => tryFinish last rest
      else tryFinish last rest
    | [] => tryFinish last rest

/-- Match `v?\d+(?:[._]\d+){1,3}(?:[-+][0-9A-Za-z.-]+)?\b` at the current
position (case-insensitive `v` from the `(?i)` flag; the leading `\b` is
checked by the caller). -/
def matchCore (l : List Char) : Option (List Char) :=
  let (vpart, afterV) :=
    match l with
    | c :: rest => if c = 'v' ∨ c = 'V' then ([c], rest) else ([], l)
    | [] => ([], l)
  match afterV with
  | d :: _ =>
    if d.isDigit then
      let (ds, rest1) := takeDigits afterV
      match rest1 with
      | sep :: rs =>
        if sep = '.' ∨ sep = '_' then
          match rs with
          | d2 :: _ =>
            if d2.isDigit then
              let (ds2, rest2) := takeDigits rs
              match tryReps (ds2.getLastD d2) rest2 2 with
              | some (m, _) => some (vpart ++ ds ++ sep :: (ds2 ++ m))
              | none => none
            else none
          | [] => none
        else none
      | [] => none
    else none
  | [] => none

/-- Leftmost match of the version regex: try each start position left to
right; the first character of any match is a word character, so the
leading `\b` amounts to the previous character being absent or non-word. -/
def findFrom : Option Char → List Char → Option (List Char)
  | _, [] => none
  | prev, c :: rest =>
    let startOk := match prev with
      | none => true
      | some p => !(isWordChar p)
    match (if startOk then matchCore (c :: rest) else none) with
    | some m => some m
    | none => findFrom (some c) rest

/-- `Engine::version_from_asset_name` (lib.rs): first regex match, trimmed,
with `_` replaced by `.`. -/
def version_from_asset_name (asset_name : String) : Option String :=
  match findFrom none asset_name.data with
  | none => none
  | some m =>
    let v := rustTrim (String.mk m)
    if v.data.isEmpty then none
    else some (String.mk (v.data.map (fun c => if c = '_' then '.' else c)))

/-- `Engine::is_generic_release_label` (lib.rs). -/
def is_generic_release_label (label : String) : Bool :=
  let l := asciiLower (rustTrim label)
  if l.data.isEmpty then true
  else
    (l == "release" || l == "latest" || l == "stable" || l == "current"
      || l == "download")
    || strStartsWith l "release "
    || strStartsWith l "latest "
    || strStartsWith l "stable "

/-- `Engine::effective_latest_label` (lib.rs). -/
def effective_latest_label (tag : String) (asset_name : String) : String :=
  let trimmed := rustTrim tag
  if !is_generic_release_label trimmed then trimmed
  else
    match version_from_asset_name asset_name with
    | some v => v
    | none => trimmed

/-- `Engine::normalized_current_version` (lib.rs). -/
def normalized_current_version (r : Repo) : Option String :=
  match r.last_version with
  | none => none
  | some cur =>
    if !is_generic_release_label cur then some cur
    else
      match r.installed_asset_name with
      | some asset_name =>
        match version_from_asset_name asset_name with
        | some v => some v
        | none => some cur
      | none => some cur

/-! ### Asset policy (lib.rs) -/

/-- Split a character list at a separator character (like Rust
`str::split` / `String.splitOn` with a one-character pattern). -/
def splitChar (sep : Char) : List Char → List (List Char)
  | [] => [[]]
  | c :: t =>
    if c = sep then [] :: splitChar sep t
    else
      match splitChar sep t with
      | h :: rest => (c :: h) :: rest
      | [] => [[c]]

/-- String-level wrapper for `splitChar`. -/
def splitOnChar (s : String) (sep : Char) : List String :=
  (splitChar sep s.data).map String.mk

/-- Rust `Path::file_name` for the slash-separated names occurring as
asset names: the last non-empty `/`-separated segment.  (Asset names are
single path components in practice; `.` / `..` components, for which
Rust returns no file name, also yield no extension below.) -/
def fileNameOf (name : String) : String :=
  match ((splitOnChar name '/').filter (fun s => !s.data.isEmpty)).getLast? with
  | some s => s
  | none => ""

/-- Rust `Path::extension` on a file name: the portion after the last
`.`, or `none` when there is no `.` or the only `.` is a leading one. -/
def rustExtension (fname : String) : Option String :=
  let r := fname.data.reverse
  let ext := r.takeWhile (fun c => c ≠ '.')
  match r.dropWhile (fun c => c ≠ '.') with
  | [] => none
  | _ :: stemRev => if stemRev.isEmpty then none else some (String.mk ext.reverse)

/-- `Engine::asset_extension` (lib.rs): extension of the asset name,
trimmed and ASCII-lowercased, `none` when empty. -/
def asset_extension (name : String) : Option String :=
  match rustExtension (fileNameOf name) with
  | none => none
  | some ext =>
    let e := asciiLower (rustTrim ext)
    if e.data.isEmpty then none else some e

/-- `Engine::is_blocked_extension` (lib.rs): the closed block-list of
executable/script/installer extensions. -/
def is_blocked_extension (ext : String) : Bool :=
  ext == "exe" || ext == "msi" || ext == "msix" || ext == "appx"
    || ext == "bat" || ext == "cmd" || ext == "ps1" || ext == "vbs"
    || ext == "js" || ext == "jse" || ext == "wsf" || ext == "wsh"
    || ext == "scr" || ext == "com" || ext == "sh" || ext == "run"
    || ext == "apk" || ext == "jar" || ext == "py" || ext == "pl"
    || ext == "rb" || ext == "dmg" || ext == "pkg"

/-- `Engine::is_asset_allowed` (lib.rs). -/
def is_asset_allowed (asset : ReleaseAsset) (mode : InstallMode) : Bool :=
  let name := rustTrim asset.name
  if name.data.isEmpty then false
  else
    match asset_extension name with
    | none => (match mode with | .Raw => true | _ => false)
    | some ext =>
      if is_blocked_extension ext then false
      else
        match mode with
        | .Addon | .Mixed => ext == "zip"
        | .AddonGit => false
        | .Dll => ext == "dll" || ext == "zip"
        | .Auto => ext == "dll" || ext == "zip"
        | .Raw => true

/-- List-level substring test used for Rust `str::contains`. -/
def hasSub : List Char → List Char → Bool
  | [], pat => pat.isEmpty
  | c :: t, pat => isPreOf pat (c :: t) || hasSub t pat

/-- Rust `str::contains` with a string pattern. -/
def strContains (s pat : String) : Bool :=
  hasSub s.data pat.data

/-- The external `regex` crate, abstracted: whether a pattern compiles,
and whether a compiled pattern matches a text.  `pick_asset` below is
proved to reject every asset in addon-git mode for *every* such engine. -/
structure RegexEngine where
  compiles : String → Bool
  isMatch : String → String → Bool

/-- `Engine::pick_asset` (lib.rs): asset selection for a release.  The
regex engine is the abstract parameter `rx`; the error text produced when
a user regex fails to compile is abstracted to a fixed string. -/
def pick_asset (rx : RegexEngine) (rel : LatestRelease) (mode : InstallMode)
    (asset_regex : Option String) : Except String ReleaseAsset :=
  let assets := rel.assets
  if assets.isEmpty then
    .error ("No assets found in latest release " ++ rel.tag)
  else
    let is_allowed := fun (a : ReleaseAsset) => is_asset_allowed a mode
    let regexStep : Except String (Option ReleaseAsset) :=
      match asset_regex with
      | none => .ok none
      | some pat =>
        if !rx.compiles pat then .error "invalid asset regex"
        else .ok (assets.find? (fun a => rx.isMatch pat a.name && is_allowed a))
    match regexStep with
    | .error e => .error e
    | .ok (some a) => .ok a
    | .ok none =>
      let prefer_zip := mode = InstallMode.Addon ∨ mode = InstallMode.Mixed
        ∨ mode = InstallMode.Auto
      let zipPick : Option ReleaseAsset :=
        if prefer_zip then
          let has_vanillafixes := assets.any
            (fun a => strStartsWith (asciiLower a.name) "vanillafixes")
          let vfPick : Option ReleaseAsset :=
            if has_vanillafixes then
              assets.find? (fun a =>
                let lower := asciiLower a.name
                strEndsWith lower ".zip"
                  && !(strContains lower "-dxvk")
                  && is_allowed a)
            else none
          match vfPick with
          | some a => some a
          | none =>
            assets.find? (fun a =>
              strEndsWith (asciiLower a.name) ".zip" && is_allowed a)
        else none
      match zipPick with
      | some a => .ok a
      | none =>
        let dllPick : Option ReleaseAsset :=
          if mode = InstallMode.Dll then
            assets.find? (fun a =>
              strEndsWith (asciiLower a.name) ".dll" && is_allowed a)
          else none
        match dllPick with
        | some a => .ok a
        | none =>
          match assets.find? is_allowed with
          | some a => .ok a
          | none =>
            .error ("No safe/compatible release asset found for mode "
              ++ mode.as_str ++ " in " ++ rel.tag ++ ".")

/-- `Engine::host_matches_or_subdomain` (lib.rs). -/
def host_matches_or_subdomain (host trusted : String) : Bool :=
  eqIgnoreAsciiCase host trusted
    || strEndsWith (asciiLower host) ("." ++ asciiLower trusted)

/-- Parsed pieces of a URL as produced by the external `url` crate
(which normalises the scheme to lowercase): scheme and optional host. -/
structure UrlParts where
  scheme : String
  host : Option String
deriving DecidableEq, Repr

/-- `Engine::validate_asset_url` (lib.rs), with the `url` crate's parser
abstracted as `parseUrl` (`none` models a parse error). -/
def validate_asset_url (parseUrl : String → Option UrlParts)
    (plan : UpdatePlan) : Except String Unit :=
  match parseUrl plan.asset_url with
  | none => .error "invalid asset URL"
  | some parsed =>
    if parsed.scheme ≠ "https" then
      .error ("Blocked non-HTTPS asset URL: " ++ plan.asset_url)
    else
      match parsed.host with
      | none => .error "Asset URL missing host"
      | some host =>
        let trusted_hosts := plan.host ::
          (if eqIgnoreAsciiCase plan.forge "github" then
            ["github.com", "objects.githubusercontent.com",
             "release-assets.githubusercontent.com", "codeload.github.com"]
          else [])
        if trusted_hosts.any (fun h => host_matches_or_subdomain host h) then
          .ok ()
        else
          .error ("Blocked asset host '" ++ host ++ "' (not trusted for "
            ++ plan.owner ++ "/" ++ plan.name ++ ")")

/-! ### GitHub digest parsing (forge/github.rs) -/

/-- Rust `char::is_ascii_hexdigit`. -/
def isAsciiHexDigit (c : Char) : Bool :=
  c.isDigit || ('a' ≤ c ∧ c ≤ 'f') || ('A' ≤ c ∧ c ≤ 'F')

/-- `parse_sha256_digest` (forge/github.rs): trims, strips an exact
`sha256:` or `SHA256:` prefix if present, trims and ASCII-lowercases,
and accepts exactly 64 ASCII hex characters. -/
def parse_sha256_digest (raw : Option String) : Option String :=
  match raw with
  | none => none
  | some s =>
    let digest := rustTrim s
    if digest.data.isEmpty then none
    else
      let afterStrip : List Char :=
        match dropPre "sha256:".data digest.data with
        | some rest => rest
        | none =>
          match dropPre "SHA256:".data digest.data with
          | some rest => rest
          | none => digest.data
      let hex := asciiLower (rustTrim (String.mk afterStrip))
      if hex.data.length = 64 ∧ hex.data.all isAsciiHexDigit then some hex
      else none

/-- Modelled from the spec (claim C8's words, for refutation): the digest
string accepted after stripping a *case-insensitive* `sha256:` prefix and
trimming, when exactly 64 ASCII hex characters remain; the stored value
is that hex lowercased. -/
def claimDigestSpec (s : String) : Option String :=
  let digest := rustTrim s
  let afterStrip : List Char :=
    if asciiLower (String.mk (digest.data.take 7)) == "sha256:" then
      digest.data.drop 7
    else digest.data
  let hex := asciiLower (rustTrim (String.mk afterStrip))
  if hex.data.length = 64 ∧ hex.data.all isAsciiHexDigit then some hex
  else none

/-- The amended digest acceptance condition (claim C8 amended): as the
claim, but the `sha256:` prefix is stripped only in the two exact casings
the code recognises, `sha256:` and `SHA256:`. -/
def amendedDigestSpec (s : String) : Option String :=
  let digest := rustTrim s
  let afterStrip : List Char :=
    if isPreOf "sha256:".data digest.data then digest.data.drop 7
    else if isPreOf "SHA256:".data digest.data then digest.data.drop 7
    else digest.data
  let hex := asciiLower (rustTrim (String.mk afterStrip))
  if hex.data.length = 64 ∧ hex.data.all isAsciiHexDigit then some hex
  else none

/-! ### Repo store (db.rs)

The `repos` SQLite table is modelled as a list of stored rows plus the
AUTOINCREMENT counter; the `rate_limits` table as an association list
keyed by host.  The unique index `idx_repos_unique` on
`(host, owner, name)` is modelled by making `INSERT` fail with a
constraint violation exactly when a row with that key already exists. -/

/-- One stored row of the `repos` table (column types as in the schema;
`mode` is the *stored string*, not the parsed enum). -/
structure StoredRow where
  id : Int
  url : String
  forge : String
  host : String
  owner : String
  name : String
  mode : String
  enabled : Int
  git_branch : Option String
  asset_regex : Option String
  last_version : Option String
  etag : Option String
  installed_asset_id : Option String
  installed_asset_name : Option String
  installed_asset_size : Option Int
  installed_asset_url : Option String
deriving DecidableEq, Repr

/-- The `repos` table: rows plus the next AUTOINCREMENT rowid. -/
structure ReposTable where
  rows : List StoredRow
  next_id : Int
deriving DecidableEq, Repr

/-- Two rows collide on the unique `(host, owner, name)` index. -/
def sameKeyRow (a b : StoredRow) : Bool :=
  a.host == b.host && a.owner == b.owner && a.name == b.name

/-- A row matches a repo's `(host, owner, name)` identity key. -/
def rowHasKey (r : Repo) (row : StoredRow) : Bool :=
  row.host == r.host && row.owner == r.owner && row.name == r.name

/-- The row inserted for a repo by `Db::add_repo` (db.rs): `mode` is
stored via `InstallMode::as_str`, `enabled` as 0/1. -/
def mkRow (id : Int) (r : Repo) : StoredRow :=
  { id := id
    url := r.url, forge := r.forge, host := r.host, owner := r.owner
    name := r.name, mode := r.mode.as_str
    enabled := if r.enabled then 1 else 0
    git_branch := r.git_branch, asset_regex := r.asset_regex
    last_version := r.last_version, etag := r.etag
    installed_asset_id := r.installed_asset_id
    installed_asset_name := r.installed_asset_name
    installed_asset_size := r.installed_asset_size
    installed_asset_url := r.installed_asset_url }

/-- `Db::add_repo` (db.rs): try the INSERT; on a unique-constraint
violation, resolve the existing row id by `(host, owner, name)`, falling
back to a `(forge, host, owner, name)` lookup. -/
def add_repo (t : ReposTable) (r : Repo) : Except String Int × ReposTable :=
  if t.rows.any (rowHasKey r) then
    match t.rows.find? (rowHasKey r) with
    | some row => (.ok row.id, t)
    | none =>
      match t.rows.find? (fun row => row.forge == r.forge && rowHasKey r row) with
      | some row => (.ok row.id, t)
      | none => (.error "QueryReturnedNoRows", t)
  else
    (.ok t.next_id, { rows := t.rows ++ [mkRow t.next_id r], next_id := t.next_id + 1 })

/-- Row-to-`Repo` conversion used by `Db::list_repos` / `Db::get_repo`
(db.rs): an unrecognised stored mode string falls back to `Auto` via
`unwrap_or(InstallMode::Auto)`. -/
def repo_of_row (row : StoredRow) : Repo :=
  { id := row.id, url := row.url, forge := row.forge, host := row.host
    owner := row.owner, name := row.name
    enabled := row.enabled ≠ 0
    mode := (InstallMode.from_str row.mode).getD InstallMode.Auto
    git_branch := row.git_branch, asset_regex := row.asset_regex
    last_version := row.last_version, etag := row.etag
    installed_asset_id := row.installed_asset_id
    installed_asset_name := row.installed_asset_name
    installed_asset_size := row.installed_asset_size
    installed_asset_url := row.installed_asset_url }

/-- `Db::list_repos` (db.rs): decode every row (ordering by key is
irrelevant to the properties proved here and left abstract). -/
def list_repos (t : ReposTable) : Except String (List Repo) :=
  .ok (t.rows.map repo_of_row)

/-- Number of rows carrying a repo's identity key. -/
def keyCount (rows : List StoredRow) (r : Repo) : Nat :=
  (rows.filter (rowHasKey r)).length

/-- The invariant enforced by the unique index `idx_repos_unique`: no two
rows share an identity key. -/
def RowsKeyUnique (rows : List StoredRow) : Prop :=
  List.Pairwise (fun a b => sameKeyRow a b = false) rows

/-- The id `add_repo` resolves for a repo: the existing row's id when the
key is present, the fresh AUTOINCREMENT id otherwise. -/
def resolved_id (t : ReposTable) (r : Repo) : Int :=
  match t.rows.find? (rowHasKey r) with
  | some row => row.id
  | none => t.next_id

/-- The `rate_limits` table: association list host ↦ reset epoch. -/
abbrev RateDb : Type := List (String × Int)

/-- `Db::get_rate_limit` (db.rs). -/
def get_rate_limit (db : RateDb) (host : String) : Option Int :=
  match List.find? (fun p => p.1 == host) db with
  | some p => some p.2
  | none => none

/-- `Db::clear_rate_limit` (db.rs). -/
def clear_rate_limit (db : RateDb) (host : String) : RateDb :=
  List.filter (fun p => p.1 ≠ host) db

/-- `Db::set_rate_limit` (db.rs): upsert keyed by host. -/
def set_rate_limit (db : RateDb) (host : String) (reset_epoch : Int) : RateDb :=
  (host, reset_epoch) :: clear_rate_limit db host

/-! ### Forge release cache (forge/mod.rs)

`RELEASE_CACHE` is a process-wide `HashMap<String, CachedRelease>`
guarded by a mutex; `Instant` timestamps are modelled as `Nat` seconds
(`elapsed = now - fetched_at`).  The three HTTP backends behind
`latest_release` are abstracted as a function parameter `backend`. -/

/-- `CachedRelease` (forge/mod.rs). -/
structure CachedRelease where
  fetched_at : Nat
  etag : Option String
  release : LatestRelease
deriving DecidableEq, Repr

/-- The release cache map, as an association list key ↦ entry. -/
abbrev Cache : Type := List (String × CachedRelease)

/-- Map lookup on the cache. -/
def cacheLookup (cache : Cache) (key : String) : Option CachedRelease :=
  match List.find? (fun p => p.1 == key) cache with
  | some p => some p.2
  | none => none

/-- Map removal on the cache. -/
def cacheRemove (cache : Cache) (key : String) : Cache :=
  List.filter (fun p => p.1 ≠ key) cache

/-- Map insert-or-replace on the cache. -/
def cacheInsert (cache : Cache) (key : String) (v : CachedRelease) : Cache :=
  (key, v) :: cacheRemove cache key

/-- `RELEASE_CACHE_TTL` (forge/mod.rs): 45 seconds. -/
def RELEASE_CACHE_TTL : Nat := 45

/-- `cache_key` (forge/mod.rs): forge kind, lowercase host, lowercase
project path, pipe-separated. -/
def cache_key (kind : ForgeKind) (host project_path : String) : String :=
  let forge := match kind with
    | .GitHub => "github"
    | .GitLab => "gitlab"
    | .Gitea => "gitea"
  forge ++ "|" ++ asciiLower host ++ "|" ++ asciiLower project_path

/-- `cache_read` (forge/mod.rs): expired entries are removed and miss;
a fresh entry answers `not_modified = true` when the caller's tag is
`Some` and equals the cached tag, and otherwise hands back the cached
release. -/
def cache_read (cache : Cache) (now : Nat) (key : String) (etag : Option String) :
    Option (Option String × Option LatestRelease × Bool) × Cache :=
  match cacheLookup cache key with
  | none => (none, cache)
  | some entry =>
    if now - entry.fetched_at > RELEASE_CACHE_TTL then
      (none, cacheRemove cache key)
    else if etag.isSome && entry.etag == etag then
      (some (entry.etag, none, true), cache)
    else
      (some (entry.etag, some entry.release, false), cache)

/-- `cache_write` (forge/mod.rs). -/
def cache_write (cache : Cache) (now : Nat) (key : String)
    (etag : Option String) (release : LatestRelease) : Cache :=
  cacheInsert cache key { fetched_at := now, etag := etag, release := release }

/-- `forge::latest_release` (forge/mod.rs): serve from the cache when
possible, otherwise call the per-forge backend (abstracted as `backend`)
and cache any returned release. -/
def forge_latest_release
    (backend : Option String → Except String (Option String × Option LatestRelease × Bool))
    (cache : Cache) (now : Nat) (key : String) (etag : Option String) :
    Except String (Option String × Option LatestRelease × Bool) × Cache :=
  match cache_read cache now key etag with
  | (some hit, cache1) => (.ok hit, cache1)
  | (none, cache1) =>
    match backend etag with
    | .error e => (.error e, cache1)
    | .ok out =>
      match out.2.1 with
      | some rel => (.ok out, cache_write cache1 now key out.1 rel)
      | none => (.ok out, cache1)

/-! ### Install-pipeline filesystem model (lib.rs conflict handling)

The filesystem is modelled as a flat association list of absolute paths
(unix-style strings) to node summaries; a directory's child count is
summarised by `dirEmpty` / `dirNonEmpty`.  Only what
`path_has_conflicting_content` / `remove_any_target` observe is
modelled. -/

/-- What `fs::symlink_metadata` + `fs::read_dir` observe at a path. -/
inductive FsNode
  | file
  | symlink
  | dirEmpty
  | dirNonEmpty
deriving DecidableEq, Repr

/-- The filesystem: path ↦ node. -/
abbrev Fs : Type := List (String × FsNode)

/-- Lookup a path's node. -/
def fsLookup (fs : Fs) (p : String) : Option FsNode :=
  match List.find? (fun e => e.1 == p) fs with
  | some e => some e.2
  | none => none

/-- `Engine::path_has_conflicting_content` (lib.rs): a missing path or an
empty directory is fine; a non-empty directory, file or symlink
conflicts. -/
def path_has_conflicting_content (fs : Fs) (p : String) : Bool :=
  match fsLookup fs p with
  | none => false
  | some .dirEmpty => false
  | some _ => true

/-- `Engine::remove_any_target` (lib.rs): removes the node at the path
(recursively for directories, hence also every path below it). -/
def remove_any_target (fs : Fs) (p : String) : Fs :=
  List.filter (fun e => !(e.1 == p || strStartsWith e.1 (p ++ "/"))) fs

/-- `InstallEntry` (db.rs): one persisted manifest row. -/
structure InstallEntry where
  path : String
  kind : String
deriving DecidableEq, Repr

/-- `Engine::resolve_install_path` (lib.rs): absolute paths pass through;
relative paths must be free of parent components and are joined onto the
installation root. -/
def resolve_install_path (path : String) (wow_dir : Option String) : Option String :=
  if strStartsWith path "/" then some path
  else
    match wow_dir with
    | none => none
    | some base =>
      if (splitOnChar path '/').any (fun c => c == "..") then none
      else some (base ++ "/" ++ path)

/-- `Engine::addon_install_conflicts` (lib.rs): for each detected addon
folder name, the `Interface/AddOns` destination conflicts when it is not
among the project's tracked `addon` manifest paths and has conflicting
content. -/
def addon_install_conflicts (entries : List InstallEntry) (wow_dir : String)
    (addon_folder_names : List String) (fs : Fs) : List (String × String) :=
  let tracked := (entries.filter (fun e => e.kind == "addon")).filterMap
    (fun e => resolve_install_path e.path (some wow_dir))
  addon_folder_names.filterMap (fun addon_name =>
    let dst := wow_dir ++ "/Interface/AddOns/" ++ addon_name
    if tracked.contains dst then none
    else if path_has_conflicting_content fs dst then some (addon_name, dst)
    else none)

/-- `Vec::join` on strings. -/
def joinSep (sep : String) : List String → String
  | [] => ""
  | [x] => x
  | x :: xs => x ++ sep ++ joinSep sep xs

/-- `Engine::format_addon_conflict_message` (lib.rs). -/
def format_addon_conflict_message (conflicts : List (String × String)) : String :=
  "ADDON_CONFLICT: Existing addon files were found for: "
    ++ joinSep "; " (conflicts.map (fun nc => nc.1 ++ " (" ++ nc.2 ++ ")"))
    ++ ". Confirm replacement to delete those folders and continue."

/-- The conflict-handling step of `Engine::apply_one`'s git branch
(lib.rs, after addon detection): with conflicts present, fail with the
aggregated message unless `replace_addon_conflicts` is set, in which case
every conflicting path is removed. -/
def apply_one_conflict_gate (entries : List InstallEntry) (wow_dir : String)
    (fs : Fs) (addon_names : List String) (replace_addon_conflicts : Bool) :
    Except String Fs :=
  let conflicts := addon_install_conflicts entries wow_dir addon_names fs
  if conflicts.isEmpty then .ok fs
  else if !replace_addon_conflicts then
    .error (format_addon_conflict_message conflicts)
  else
    .ok (conflicts.foldl (fun acc nc => remove_any_target acc nc.2) fs)

/-- `Engine::apply_one`, git branch, from the conflict check onwards:
the stale-entry removal, deployment and manifest persistence that follow
the gate are abstracted as `deploy`, so the gate's outcome is proved for
every possible deployment behaviour. -/
def apply_one_git_deploy (deploy : Fs → Except String Fs)
    (entries : List InstallEntry) (wow_dir : String) (fs : Fs)
    (addon_names : List String) (replace_addon_conflicts : Bool) :
    Except String Fs :=
  match apply_one_conflict_gate entries wow_dir fs addon_names replace_addon_conflicts with
  | .error e => .error e
  | .ok fs1 => deploy fs1

/-! ### Update planner: rate-limit gating (lib.rs)

`Engine::build_update_plan_for_repo` begins with the disabled / git-mode
dispatch and the GitHub rate-limit gate before any forge request is
issued.  That prefix is modelled as a step function returning either a
short-circuit plan, the git-mode branch marker, or `proceed` (the point
at which `forge::latest_release` would be called); `detect_repo`'s
result kind is a parameter (detection only reads `r.url`). -/

/-- `Engine::blank_plan` (lib.rs). -/
def blank_plan (r : Repo) : UpdatePlan :=
  let current := normalized_current_version r
  { repo_id := r.id, forge := r.forge, host := r.host, owner := r.owner
    name := r.name, url := r.url, mode := r.mode
    current := current
    latest := current.getD "unknown"
    asset_id := "", asset_name := "", asset_url := ""
    asset_size := none, asset_sha256 := none
    repair_needed := false, not_modified := false, applied := false
    error := none }

/-- `Engine::rate_limited_plan` (lib.rs): a blank plan carrying the
rate-limit error message with the cooldown epoch. -/
def rate_limited_plan (r : Repo) (reset_epoch : Int) : UpdatePlan :=
  let p := blank_plan r
  { p with error := some ("GitHub API rate-limited for " ++ r.host
      ++ " until unix " ++ toString reset_epoch
      ++ ". Add a GitHub token in Wuddle settings to raise limits.") }

/-- Outcome of the pre-network prefix of `build_update_plan_for_repo`. -/
inductive GateStep
  | gitAddon
  | shortCircuit (p : UpdatePlan)
  | proceed
deriving DecidableEq, Repr

/-- The pre-network prefix of `Engine::build_update_plan_for_repo`
(lib.rs, lines 713–734): disabled repos and git-mode repos branch off;
for a GitHub-kind repo, a token clears any cooldown and proceeds, an
unexpired persisted cooldown short-circuits to `rate_limited_plan`, an
expired one is cleared before proceeding.  Returns the step together
with the updated `rate_limits` table. -/
def build_plan_gate (r : Repo) (detKind : ForgeKind) (hasToken : Bool)
    (now : Int) (rl : RateDb) : GateStep × RateDb :=
  if !r.enabled then (.shortCircuit (blank_plan r), rl)
  else if r.mode = InstallMode.AddonGit then (.gitAddon, rl)
  else if detKind = ForgeKind.GitHub then
    if hasToken then (.proceed, clear_rate_limit rl r.host)
    else
      match get_rate_limit rl r.host with
      | some reset_epoch =>
        if now < reset_epoch then (.shortCircuit (rate_limited_plan r reset_epoch), rl)
        else (.proceed, clear_rate_limit rl r.host)
      | none => (.proceed, rl)
  else (.proceed, rl)

/-! ### Sample values used by witnesses -/

/-- A sample tracked repo (release mode, no prior install). -/
def rSample : Repo :=
  { id := 0, url := "https://github.com/o/n", forge := "github"
    host := "github.com", owner := "o", name := "n"
    mode := InstallMode.Addon, enabled := true
    git_branch := none, asset_regex := none, last_version := none
    etag := none, installed_asset_id := none, installed_asset_name := none
    installed_asset_size := none, installed_asset_url := none }

/-- A stored row whose `mode` column is not a recognised mode name. -/
def bogusRow : StoredRow :=
  { id := 7, url := "https://example.org/o/n", forge := "gitea"
    host := "example.org", owner := "o", name := "n"
    mode := "bogus", enabled := 1
    git_branch := none, asset_regex := none, last_version := none
    etag := none, installed_asset_id := none, installed_asset_name := none
    installed_asset_size := none, installed_asset_url := none }

/-- A digest string with a mixed-case `Sha256:` prefix and 64 hex chars. -/
def mixedCaseDigest : String :=
  "Sha256:" ++ String.mk (List.replicate 64 '0')

/-- A sample release used by the cache witness. -/
def relSample : LatestRelease :=
  { tag := "v1.0", name := none, assets := [] }

/-- A one-entry release cache, keyed by `cache_key` (note the key
lowercases host and project path), fetched at time 10. -/
def cacheSample : Cache :=
  [(cache_key ForgeKind.GitHub "GitHub.com" "O/N",
    { fetched_at := 10, etag := some "W/abc", release := relSample })]

/-! ### Helper lemmas -/

/-- In addon-git mode no release asset is ever allowed. -/
theorem is_asset_allowed_addonGit (a : ReleaseAsset) :
    is_asset_allowed a InstallMode.AddonGit = false := by
  unfold is_asset_allowed
  by_cases h : (rustTrim a.name).data.isEmpty
  · simp [h]
  · simp only [h, Bool.false_eq_true, if_false, ite_false]
    cases asset_extension (rustTrim a.name) <;> simp

/-- A string with empty character data is the empty string. -/
theorem eq_empty_of_data_nil (s : String) (h : s.data = []) : s = "" := by
  cases s with
  | mk d =>
    simp only [String.data] at h
    subst h
    rfl

/-! ### Claim C5 -/

/-- C5 (counterexample): the asset named `".exe"` ends in `.exe`, yet it
is allowed in raw mode, because Rust `Path::extension` treats the lone
leading-dot name as having no extension, and extensionless assets are
raw-installable.  This refutes the claim that a name ending in `.exe` is
never allowed in any mode. -/
theorem C5_counterexample_dot_exe_raw :
    is_asset_allowed
      { id := none, name := ".exe", download_url := "", size := none
        content_type := none, sha256 := none } InstallMode.Raw = true := by
  decide

/-- C5 (amended): stated over the parsed extension, which is how the code
classifies names (a lone leading-dot name such as `".exe"` parses as
extensionless): an asset whose parsed extension is `exe` is never allowed
in any mode; one whose parsed extension is `zip` is allowed in addon,
mixed, dll and automatic modes; a nonempty-named asset with no parsed
extension is allowed exactly in raw mode. -/
theorem C5_asset_mode_policy (a : ReleaseAsset) (mode : InstallMode) :
    (asset_extension (rustTrim a.name) = some "exe" →
      is_asset_allowed a mode = false)
    ∧ (asset_extension (rustTrim a.name) = some "zip" →
        (mode = InstallMode.Addon ∨ mode = InstallMode.Mixed
          ∨ mode = InstallMode.Dll ∨ mode = InstallMode.Auto) →
        is_asset_allowed a mode = true)
    ∧ ((rustTrim a.name).data ≠ [] →
        asset_extension (rustTrim a.name) = none →
        (is_asset_allowed a mode = true ↔ mode = InstallMode.Raw)) := by
  refine ⟨?_, ?_, ?_⟩
  · intro hx
    by_cases hemp : (rustTrim a.name).data = []
    · rw [eq_empty_of_data_nil _ hemp] at hx
      exact absurd hx (by decide)
    · simp [is_asset_allowed, hx, List.isEmpty_iff, hemp, is_blocked_extension]
  · intro hx hm
    by_cases hemp : (rustTrim a.name).data = []
    · rw [eq_empty_of_data_nil _ hemp] at hx
      exact absurd hx (by decide)
    · rcases hm with h | h | h | h <;> subst h <;>
        simp [is_asset_allowed, hx, List.isEmpty_iff, hemp, is_blocked_extension]
  · intro hemp hx
    simp only [is_asset_allowed, hx, List.isEmpty_iff, hemp, if_false]
    cases mode <;> simp

/-- C5 witness: the amended policy evaluated on concrete assets: a
`.exe`-extension asset is rejected even in raw mode, a `.zip` asset is
accepted in addon mode, and an extensionless asset is rejected in
automatic mode. -/
theorem C5_asset_mode_policy_witness :
    is_asset_allowed
      { id := none, name := "tool.exe", download_url := "", size := none
        content_type := none, sha256 := none } InstallMode.Raw = false
    ∧ is_asset_allowed
      { id := none, name := "addon.zip", download_url := "", size := none
        content_type := none, sha256 := none } InstallMode.Addon = true
    ∧ is_asset_allowed
      { id := none, name := "noext", download_url := "", size := none
        content_type := none, sha256 := none } InstallMode.Auto = false := by
  refine ⟨?_, ?_, ?_⟩
  · exact (C5_asset_mode_policy _ InstallMode.Raw).1 (by decide)
  · exact (C5_asset_mode_policy _ InstallMode.Addon).2.1 (by decide) (Or.inl rfl)
  · have h := (C5_asset_mode_policy
      { id := none, name := "noext", download_url := "", size := none
        content_type := none, sha256 := none } InstallMode.Auto).2.2
      (by decide) (by decide)
    cases hb : is_asset_allowed
      { id := none, name := "noext", download_url := "", size := none
        content_type := none, sha256 := none } InstallMode.Auto
    · rfl
    · exact absurd (h.mp hb) (by decide)

/-! ### Claim C10 -/

/-- C10: in addon-via-git mode the asset-allowed predicate rejects every
release asset, and consequently `pick_asset` returns an error for every
release, every user asset-regex, and every behaviour of the regex
engine: no release asset is ever selectable for a git-mode project. -/
theorem C10_addon_git_never_selects_asset :
    (∀ a : ReleaseAsset, is_asset_allowed a InstallMode.AddonGit = false)
    ∧ (∀ (rx : RegexEngine) (rel : LatestRelease) (rgx : Option String),
        (pick_asset rx rel InstallMode.AddonGit rgx).isOk = false) := by
  refine ⟨is_asset_allowed_addonGit, ?_⟩
  intro rx rel rgx
  unfold pick_asset
  by_cases hempty : rel.assets.isEmpty
  · simp only [hempty, if_true, ite_true]
    rfl
  · simp only [hempty, Bool.false_eq_true, if_false, ite_false]
    have hfind : ∀ (p : ReleaseAsset → Bool),
        (∀ a, p a = true → is_asset_allowed a InstallMode.AddonGit = true) →
        rel.assets.find? p = none := by
      intro p hp
      rw [List.find?_eq_none]
      intro a _ hpa
      have := hp a hpa
      rw [is_asset_allowed_addonGit] at this
      exact absurd this (by decide)
    cases rgx with
    | none =>
      simp only []
      rw [hfind (fun a => is_asset_allowed a InstallMode.AddonGit) (fun a h => h)]
      rfl
    | some pat =>
      by_cases hc : rx.compiles pat
      · simp only [hc, Bool.not_true, Bool.false_eq_true, if_false, ite_false]
        rw [hfind _ (fun a h => by
          simp only [Bool.and_eq_true] at h
          exact h.2)]
        simp only []
        rw [hfind (fun a => is_asset_allowed a InstallMode.AddonGit) (fun a h => h)]
        rfl
      · simp only [hc, Bool.not_false, if_true, ite_true]
        rfl

/-! ### Claim C6 -/

/-- The embedding agrees with the code comment's own example (space
separator): `"SuperWoW 1.5.1.zip"` yields `"1.5.1"`. -/
theorem version_from_asset_name_space_example :
    effective_latest_label "latest" "SuperWoW 1.5.1.zip" = "1.5.1" := by
  decide

/-- C6: for the generic tag `"latest"` and asset name
`"SuperWoW_1.5.1.zip"` the code computes the label `"5.1"`, not the
`"1.5.1"` the spec states: the version regex's leading `\b` cannot match
between `_` (a word character) and `1`, so the leftmost match starts at
the `5`.  This contradicts the spec's stated label-extraction property
(the underscore-separated form is clearly intended to be supported — the
code even rewrites `_` to `.` in the matched fragment). -/
theorem C6_superwow_label_is_wrong :
    effective_latest_label "latest" "SuperWoW_1.5.1.zip" = "5.1"
    ∧ version_from_asset_name "SuperWoW_1.5.1.zip" = some "5.1" := by
  decide

/-! ### Claim C1 -/

/-- C1: for every URL-parser behaviour and every update plan,
`validate_asset_url` succeeds exactly when the asset URL parses, its
scheme is HTTPS, and its host equals or is a subdomain of the plan's own
forge host, or — only when the plan's forge is the GitHub dialect — of
one of the four fixed GitHub CDN/object-storage hosts; every other URL
yields an error (and hence fails the download/apply step, whose first
act on the URL is this validation). -/
theorem C1_validate_asset_url_trust (parseUrl : String → Option UrlParts)
    (plan : UpdatePlan) :
    validate_asset_url parseUrl plan = .ok () ↔
      ∃ u host, parseUrl plan.asset_url = some u ∧ u.scheme = "https"
        ∧ u.host = some host
        ∧ (host_matches_or_subdomain host plan.host = true
          ∨ (eqIgnoreAsciiCase plan.forge "github" = true
            ∧ (host_matches_or_subdomain host "github.com"
              || host_matches_or_subdomain host "objects.githubusercontent.com"
              || host_matches_or_subdomain host "release-assets.githubusercontent.com"
              || host_matches_or_subdomain host "codeload.github.com") = true)) := by
  unfold validate_asset_url
  cases hp : parseUrl plan.asset_url with
  | none =>
    constructor
    · intro h
      simp at h
    · rintro ⟨u, host, hu, -⟩
      exact Option.noConfusion hu
  | some u =>
    by_cases hs : u.scheme = "https"
    · simp only [hs, ne_eq, not_true_eq_false, if_false, ite_false]
      cases hh : u.host with
      | none =>
        constructor
        · intro h
          simp at h
        · rintro ⟨u', host, hu, -, hh', -⟩
          cases hu
          rw [hh] at hh'
          exact Option.noConfusion hh'
      | some host =>
        have hcond :
            ((plan.host :: (if eqIgnoreAsciiCase plan.forge "github" then
                ["github.com", "objects.githubusercontent.com",
                 "release-assets.githubusercontent.com", "codeload.github.com"]
              else [])).any (fun h => host_matches_or_subdomain host h) = true) ↔
            (host_matches_or_subdomain host plan.host = true
              ∨ (eqIgnoreAsciiCase plan.forge "github" = true
                ∧ (host_matches_or_subdomain host "github.com"
                  || host_matches_or_subdomain host "objects.githubusercontent.com"
                  || host_matches_or_subdomain host "release-assets.githubusercontent.com"
                  || host_matches_or_subdomain host "codeload.github.com") = true)) := by
          by_cases hg : eqIgnoreAsciiCase plan.forge "github" <;>
            simp [hg, Bool.or_assoc, or_assoc]
        by_cases hany : (plan.host :: (if eqIgnoreAsciiCase plan.forge "github" then
                ["github.com", "objects.githubusercontent.com",
                 "release-assets.githubusercontent.com", "codeload.github.com"]
              else [])).any (fun h => host_matches_or_subdomain host h)
        · simp only [hany, if_true, ite_true]
          constructor
          · intro _
            exact ⟨u, host, rfl, hs, hh, hcond.mp hany⟩
          · intro _
            trivial
        · simp only [hany, Bool.false_eq_true, if_false, ite_false]
          constructor
          · intro h
            simp at h
          · rintro ⟨u', host', hu, -, hh', hd⟩
            cases hu
            rw [hh] at hh'
            cases hh'
            exact absurd (hcond.mpr hd) hany
    · simp only [hs, ne_eq, not_false_eq_true, if_true, ite_true]
      constructor
      · intro h
        simp at h
      · rintro ⟨u', host, hu, hs', -⟩
        cases hu
        exact absurd hs' hs

/-! ### Claim C4 -/

/-- Clearing a host's cooldown row removes it from the table. -/
theorem get_rate_limit_clear (rl : RateDb) (host : String) :
    get_rate_limit (clear_rate_limit rl host) host = none := by
  unfold get_rate_limit clear_rate_limit
  induction rl with
  | nil => rfl
  | cons p t ih =>
    by_cases h : p.1 = host
    · simpa [h] using ih
    · have hd : decide (p.1 ≠ host) = true := by simp [h]
      simp only [List.filter_cons, hd, if_true]
      rw [List.find?_cons_of_neg _ (by simp [h])]
      exact ih

/-- C4: for an enabled release-mode repo whose URL detects as the GitHub
dialect (the only dialect for which cooldown rows are ever written) with
no credential: a persisted cooldown epoch strictly after `now` makes the
plan builder short-circuit — before the point where the forge request
would be issued — to the error plan `rate_limited_plan r e` carrying that
same epoch, leaving the cooldown table untouched; a persisted epoch not
in the future is cleared and the builder proceeds to the forge request. -/
theorem C4_rate_limit_gate (r : Repo) (now : Int) (rl : RateDb) (e : Int)
    (hen : r.enabled = true) (hmode : r.mode ≠ InstallMode.AddonGit)
    (hrl : get_rate_limit rl r.host = some e) :
    (now < e →
      build_plan_gate r ForgeKind.GitHub false now rl
        = (.shortCircuit (rate_limited_plan r e), rl))
    ∧ (¬ now < e →
      build_plan_gate r ForgeKind.GitHub false now rl
        = (.proceed, clear_rate_limit rl r.host)
      ∧ get_rate_limit (clear_rate_limit rl r.host) r.host = none) := by
  constructor
  · intro hlt
    simp [build_plan_gate, hen, hmode, hrl, hlt]
  · intro hge
    refine ⟨?_, get_rate_limit_clear rl r.host⟩
    simp [build_plan_gate, hen, hmode, hrl, hge]

/-- C4 witness: with a persisted cooldown for `github.com` at epoch 100,
a check at time 50 short-circuits to the rate-limited plan and a check at
time 150 clears the row and proceeds. -/
theorem C4_rate_limit_gate_witness :
    build_plan_gate rSample ForgeKind.GitHub false 50 [("github.com", 100)]
      = (.shortCircuit (rate_limited_plan rSample 100), [("github.com", 100)])
    ∧ build_plan_gate rSample ForgeKind.GitHub false 150 [("github.com", 100)]
      = (.proceed, clear_rate_limit [("github.com", 100)] rSample.host) := by
  constructor
  · exact (C4_rate_limit_gate rSample 50 [("github.com", 100)] 100 rfl
      (by decide) (by decide)).1 (by decide)
  · exact ((C4_rate_limit_gate rSample 150 [("github.com", 100)] 100 rfl
      (by decide) (by decide)).2 (by decide)).1

/-! ### Claim C7 -/

/-- C7: for every backend behaviour, a cached release entry whose age is
at most the 45-second TTL answers `latest_release` without the backend
being consulted: a caller tag that is `some` and equals the cached tag
yields `(cached tag, no release, not_modified = true)`, and a differing
or absent caller tag yields the cached release with
`not_modified = false`; the cache is unchanged in both cases. -/
theorem C7_cache_hit
    (backend : Option String → Except String (Option String × Option LatestRelease × Bool))
    (cache : Cache) (now : Nat) (key : String) (etagC : Option String)
    (entry : CachedRelease)
    (hlook : cacheLookup cache key = some entry)
    (hfresh : now - entry.fetched_at ≤ RELEASE_CACHE_TTL) :
    (∀ t, etagC = some t → entry.etag = some t →
      forge_latest_release backend cache now key etagC
        = (.ok (entry.etag, none, true), cache))
    ∧ ((etagC = none ∨ entry.etag ≠ etagC) →
      forge_latest_release backend cache now key etagC
        = (.ok (entry.etag, some entry.release, false), cache)) := by
  have hno : ¬ now - entry.fetched_at > RELEASE_CACHE_TTL := Nat.not_lt.mpr hfresh
  constructor
  · intro t h1 h2
    subst h1
    simp [forge_latest_release, cache_read, hlook, hno, h2]
  · intro h
    have hcond : (etagC.isSome && entry.etag == etagC) = false := by
      rcases h with h | h
      · subst h
        simp
      · simp [Bool.and_eq_false_iff]
        intro _
        exact h
    simp [forge_latest_release, cache_read, hlook, hno, hcond]

/-- C7 witness: a fresh cached entry (age 30 ≤ 45) served against a
failing backend: a matching caller tag gets `not_modified = true` with no
release; an absent caller tag gets the cached release. -/
theorem C7_cache_hit_witness :
    forge_latest_release (fun _ => .error "network unavailable") cacheSample 40
      (cache_key ForgeKind.GitHub "GitHub.com" "O/N") (some "W/abc")
      = (.ok (some "W/abc", none, true), cacheSample)
    ∧ forge_latest_release (fun _ => .error "network unavailable") cacheSample 40
      (cache_key ForgeKind.GitHub "GitHub.com" "O/N") none
      = (.ok (some "W/abc", some relSample, false), cacheSample) := by
  constructor
  · exact (C7_cache_hit (fun _ => .error "network unavailable") cacheSample 40
      (cache_key ForgeKind.GitHub "GitHub.com" "O/N") (some "W/abc")
      { fetched_at := 10, etag := some "W/abc", release := relSample }
      (by decide) (by decide)).1 "W/abc" rfl rfl
  · exact (C7_cache_hit (fun _ => .error "network unavailable") cacheSample 40
      (cache_key ForgeKind.GitHub "GitHub.com" "O/N") none
      { fetched_at := 10, etag := some "W/abc", release := relSample }
      (by decide) (by decide)).2 (Or.inl rfl)

/-! ### Claim C8 -/

/-- `dropPre` is the prefix-stripping function: it answers exactly on
prefixes, dropping the prefix's length. -/
theorem dropPre_eq (p : List Char) : ∀ s : List Char,
    dropPre p s = if isPreOf p s then some (s.drop p.length) else none := by
  induction p with
  | nil => intro s; simp [dropPre, isPreOf]
  | cons c p ih =>
    intro s
    cases s with
    | nil => simp [dropPre, isPreOf]
    | cons d t =>
      by_cases h : c = d
      · simp [dropPre, isPreOf, h, ih t]
      · simp [dropPre, isPreOf, h]

/-- C8 (counterexample): the digest string `"Sha256:" ++ 64 zeros` has a
case-insensitive `sha256:` prefix followed by 64 hex characters, so the
claim says it is accepted; the code strips only the exact casings
`sha256:`/`SHA256:`, leaves the mixed-case prefix in place, and rejects
the 71-character string. -/
theorem C8_counterexample_mixed_case :
    parse_sha256_digest (some mixedCaseDigest) = none
    ∧ claimDigestSpec mixedCaseDigest = some (String.mk (List.replicate 64 '0')) := by
  decide

/-- C8 (amended): the asset's stored digest is `some` exactly when the
supplied string, after trimming, stripping an exact `sha256:` or
`SHA256:` prefix (mixed casings are not stripped) and trimming again,
consists of exactly 64 ASCII hex characters; the stored value is that
hex ASCII-lowercased.  `amendedDigestSpec` states precisely this
condition, and the code equals it on every input. -/
theorem C8_amended_digest :
    (∀ s, parse_sha256_digest (some s) = amendedDigestSpec s)
    ∧ parse_sha256_digest none = none := by
  refine ⟨?_, rfl⟩
  intro s
  simp only [parse_sha256_digest, amendedDigestSpec]
  by_cases hemp : (rustTrim s).data.isEmpty
  · have h : (rustTrim s).data = [] := by simpa [List.isEmpty_iff] using hemp
    rw [if_pos hemp, h]
    norm_num [isPreOf, rustTrim, asciiLower, isWsChar]
  · rw [if_neg hemp]
    rw [dropPre_eq, dropPre_eq]
    by_cases h1 : isPreOf "sha256:".data (rustTrim s).data
    · rw [if_pos h1, if_pos h1]
      simp
    · rw [if_neg h1, if_neg h1]
      by_cases h2 : isPreOf "SHA256:".data (rustTrim s).data
      · rw [if_pos h2, if_pos h2]
        simp
      · rw [if_neg h2, if_neg h2]

/-! ### Claim C9 -/

/-- C9 (counterexample): a stored row whose `mode` column is the
unrecognised string `"bogus"` is read back successfully — `from_str`
yields no mode, and the reader substitutes `Auto` via
`unwrap_or(InstallMode::Auto)` instead of returning an error. -/
theorem C9_counterexample_bogus_mode :
    InstallMode.from_str "bogus" = none
    ∧ list_repos { rows := [bogusRow], next_id := 8 } = .ok [repo_of_row bogusRow]
    ∧ (repo_of_row bogusRow).mode = InstallMode.Auto := by
  exact ⟨by decide, rfl, by decide⟩

/-- C9 (amended): reading back a repos row whose stored mode string is
not a recognised install-mode name does not abort anything: the row
decodes with the substitute mode `Auto`, and `list_repos` succeeds. -/
theorem C9_mode_fallback (t : ReposTable) (row : StoredRow)
    (h : InstallMode.from_str row.mode = none) :
    (repo_of_row row).mode = InstallMode.Auto ∧ (list_repos t).isOk = true := by
  constructor
  · simp [repo_of_row, h]
  · rfl

/-- C9 witness: the fallback evaluated on the concrete `"bogus"` row. -/
theorem C9_mode_fallback_witness :
    (repo_of_row bogusRow).mode = InstallMode.Auto
    ∧ (list_repos { rows := [bogusRow], next_id := 8 }).isOk = true :=
  C9_mode_fallback { rows := [bogusRow], next_id := 8 } bogusRow (by decide)

/-! ### Claim C3 -/

/-- The row inserted for a repo carries the repo's identity key. -/
theorem rowHasKey_mkRow (r : Repo) (id : Int) : rowHasKey r (mkRow id r) = true := by
  simp [rowHasKey, mkRow]

/-- Two rows that both match a repo's key share a key. -/
theorem sameKey_of_both (r : Repo) (a b : StoredRow)
    (ha : rowHasKey r a = true) (hb : rowHasKey r b = true) :
    sameKeyRow a b = true := by
  simp only [rowHasKey, Bool.and_eq_true, beq_iff_eq] at ha hb
  obtain ⟨⟨ha1, ha2⟩, ha3⟩ := ha
  obtain ⟨⟨hb1, hb2⟩, hb3⟩ := hb
  simp [sameKeyRow, ha1, ha2, ha3, hb1, hb2, hb3]

/-- `find?` skips a prefix in which nothing matches. -/
theorem find?_append_of_none {α : Type} (p : α → Bool) (l1 l2 : List α)
    (h : l1.find? p = none) : (l1 ++ l2).find? p = l2.find? p := by
  induction l1 with
  | nil => rfl
  | cons a t ih =>
    cases hpa : p a with
    | true =>
      rw [List.find?_cons_of_pos _ hpa] at h
      exact Option.noConfusion h
    | false =>
      rw [List.find?_cons_of_neg _ (by simp [hpa])] at h
      rw [List.cons_append, List.find?_cons_of_neg _ (by simp [hpa])]
      exact ih h

/-- Under the unique-index invariant a key occurs at most once. -/
theorem keyCount_le_one (rows : List StoredRow) (r : Repo)
    (hwf : RowsKeyUnique rows) : keyCount rows r ≤ 1 := by
  induction rows with
  | nil => simp [keyCount]
  | cons a l ih =>
    rcases List.pairwise_cons.mp hwf with ⟨ha, hl⟩
    by_cases hka : rowHasKey r a = true
    · have hnil : l.filter (rowHasKey r) = [] := by
        rw [List.filter_eq_nil_iff]
        intro b hb hkb
        have := sameKey_of_both r a b hka hkb
        rw [ha b hb] at this
        exact Bool.noConfusion this
      simp [keyCount, List.filter_cons, hka, hnil]
    · have : keyCount l r ≤ 1 := ih hl
      simpa [keyCount, List.filter_cons, hka] using this

/-- C3: on a table satisfying the unique-key invariant, `add_repo`
resolves a repo's `(host, owner, name)` key to a single id: the call
returns `resolved_id` (the existing row's id if the key is present, the
fresh id otherwise), an immediately repeated call returns the same id
and leaves the table unchanged, exactly one row with the key exists
afterwards, and when the key was absent the first call appended exactly
the one new row and returned the new id. -/
theorem C3_add_repo_idempotent (t : ReposTable) (r : Repo)
    (hwf : RowsKeyUnique t.rows) :
    (add_repo t r).1 = .ok (resolved_id t r)
    ∧ add_repo (add_repo t r).2 r = (.ok (resolved_id t r), (add_repo t r).2)
    ∧ keyCount (add_repo t r).2.rows r = 1
    ∧ (t.rows.find? (rowHasKey r) = none →
        (add_repo t r).2.rows = t.rows ++ [mkRow t.next_id r]
        ∧ resolved_id t r = t.next_id) := by
  by_cases hAny : t.rows.any (rowHasKey r) = true
  · cases hfind : t.rows.find? (rowHasKey r) with
    | none =>
      rcases List.any_eq_true.mp hAny with ⟨x, hx, hpx⟩
      exact absurd hpx (List.find?_eq_none.mp hfind x hx)
    | some row =>
      have h1 : add_repo t r = (.ok row.id, t) := by
        simp [add_repo, hAny, hfind]
      have hres : resolved_id t r = row.id := by
        simp [resolved_id, hfind]
      have hmem := List.mem_of_find?_eq_some hfind
      have hkey := List.find?_some hfind
      refine ⟨by rw [h1, hres], by rw [h1, hres, h1], ?_, ?_⟩
      · rw [h1]
        have hle := keyCount_le_one t.rows r hwf
        have hge : 1 ≤ keyCount t.rows r := by
          have hmf : row ∈ t.rows.filter (rowHasKey r) :=
            List.mem_filter.mpr ⟨hmem, hkey⟩
          have h0 := List.length_pos.mpr (List.ne_nil_of_mem hmf)
          simpa [keyCount] using h0
        show keyCount t.rows r = 1
        omega
      · intro hnone
        exact Option.noConfusion hnone
  · have hAnyF : t.rows.any (rowHasKey r) = false := by
      simpa using hAny
    have hfind : t.rows.find? (rowHasKey r) = none := by
      rw [List.find?_eq_none]
      intro x hx
      have := List.any_eq_false.mp hAnyF x hx
      simpa using this
    have h1 : add_repo t r
        = (.ok t.next_id, ⟨t.rows ++ [mkRow t.next_id r], t.next_id + 1⟩) := by
      simp [add_repo, hAnyF]
    have hres : resolved_id t r = t.next_id := by
      simp [resolved_id, hfind]
    have hfind2 : (t.rows ++ [mkRow t.next_id r]).find? (rowHasKey r)
        = some (mkRow t.next_id r) := by
      rw [find?_append_of_none _ _ _ hfind]
      simp [List.find?_cons_of_pos, rowHasKey_mkRow r t.next_id]
    have hany2 : (t.rows ++ [mkRow t.next_id r]).any (rowHasKey r) = true :=
      List.any_eq_true.mpr ⟨mkRow t.next_id r, by simp, rowHasKey_mkRow r t.next_id⟩
    refine ⟨by rw [h1, hres], ?_, ?_, fun _ => ⟨by rw [h1], hres⟩⟩
    · rw [h1, hres]
      simp only [add_repo, hany2, if_true, ite_true, hfind2]
      rfl
    · rw [h1]
      have hnil : t.rows.filter (rowHasKey r) = [] := by
        rw [List.filter_eq_nil_iff]
        intro b hb hkb
        have := List.any_eq_false.mp hAnyF b hb
        simp [hkb] at this
      simp [keyCount, List.filter_append, hnil, rowHasKey_mkRow r t.next_id]

/-- C3 witness: adding `rSample` to the empty table inserts one row with
id 1, and the repeated add returns the same id with the table unchanged. -/
theorem C3_add_repo_idempotent_witness :
    (add_repo ⟨[], 1⟩ rSample).1 = .ok (resolved_id ⟨[], 1⟩ rSample)
    ∧ add_repo (add_repo ⟨[], 1⟩ rSample).2 rSample
        = (.ok (resolved_id ⟨[], 1⟩ rSample), (add_repo ⟨[], 1⟩ rSample).2)
    ∧ keyCount (add_repo ⟨[], 1⟩ rSample).2.rows rSample = 1
    ∧ (add_repo ⟨[], 1⟩ rSample).2.rows = [] ++ [mkRow 1 rSample]
    ∧ resolved_id ⟨[], 1⟩ rSample = 1 := by
  have h := C3_add_repo_idempotent ⟨[], 1⟩ rSample List.Pairwise.nil
  exact ⟨h.1, h.2.1, h.2.2.1, (h.2.2.2 rfl).1, (h.2.2.2 rfl).2⟩

/-! ### Claim C2 -/

/-- `fsLookup` on a cons. -/
theorem fsLookup_cons (e : String × FsNode) (t : Fs) (p : String) :
    fsLookup (e :: t) p = if e.1 == p then some e.2 else fsLookup t p := by
  simp only [fsLookup, List.find?_cons]
  by_cases h : (e.1 == p) = true <;> simp [h]

/-- Filtering cannot make an absent path appear. -/
theorem fsLookup_filter_of_none (q : String × FsNode → Bool) (fs : Fs) (p : String)
    (h : fsLookup fs p = none) : fsLookup (List.filter q fs) p = none := by
  induction fs with
  | nil => rfl
  | cons e t ih =>
    rw [fsLookup_cons] at h
    cases hep : (e.1 == p) with
    | true =>
      rw [hep] at h
      simp at h
    | false =>
      rw [hep] at h
      simp only [Bool.false_eq_true, if_false, ite_false] at h
      cases hq : q e with
      | false =>
        rw [List.filter_cons_of_neg (by simp [hq])]
        exact ih h
      | true =>
        rw [List.filter_cons_of_pos hq, fsLookup_cons, hep]
        simp only [Bool.false_eq_true, if_false, ite_false]
        exact ih h

/-- Removing a target removes that path from the filesystem. -/
theorem fsLookup_remove_self (fs : Fs) (p : String) :
    fsLookup (remove_any_target fs p) p = none := by
  unfold remove_any_target
  induction fs with
  | nil => rfl
  | cons e t ih =>
    cases hq : !(e.1 == p || strStartsWith e.1 (p ++ "/")) with
    | false =>
      rw [List.filter_cons]
      simp only [hq, Bool.false_eq_true, if_false, ite_false]
      exact ih
    | true =>
      rw [List.filter_cons]
      simp only [hq, if_true, ite_true]
      rw [fsLookup_cons]
      have hep : (e.1 == p) = false := by
        simp only [Bool.not_eq_true', Bool.or_eq_false_iff] at hq
        exact hq.1
      rw [hep]
      simp only [Bool.false_eq_true, if_false, ite_false]
      exact ih

/-- Removing some other target keeps an absent path absent. -/
theorem fsLookup_remove_of_none (fs : Fs) (p q : String)
    (h : fsLookup fs p = none) :
    fsLookup (remove_any_target fs q) p = none :=
  fsLookup_filter_of_none _ fs p h

/-- A path absent before a sequence of removals stays absent. -/
theorem fsLookup_foldl_remove_of_none (l : List (String × String)) (fs : Fs)
    (p : String) (h : fsLookup fs p = none) :
    fsLookup (l.foldl (fun acc nc => remove_any_target acc nc.2) fs) p = none := by
  induction l generalizing fs with
  | nil => exact h
  | cons c t ih =>
    exact ih (remove_any_target fs c.2) (fsLookup_remove_of_none fs p c.2 h)

/-- After removing every conflict path, each of those paths is gone. -/
theorem fsLookup_foldl_remove_mem (l : List (String × String)) (fs : Fs) :
    ∀ nc ∈ l,
      fsLookup (l.foldl (fun acc nc => remove_any_target acc nc.2) fs) nc.2 = none := by
  induction l generalizing fs with
  | nil => intro nc hnc; exact absurd hnc (List.not_mem_nil nc)
  | cons c t ih =>
    intro nc hnc
    rcases List.mem_cons.mp hnc with h | h
    · subst h
      exact fsLookup_foldl_remove_of_none t _ nc.2 (fsLookup_remove_self fs nc.2)
    · exact ih (remove_any_target fs c.2) nc h

/-- Every element of a joined list appears inside the joined string. -/
theorem joinSep_split (sep : String) (l : List String) (x : String) (hx : x ∈ l) :
    ∃ pre post : List Char, (joinSep sep l).data = pre ++ x.data ++ post := by
  induction l with
  | nil => exact absurd hx (List.not_mem_nil x)
  | cons y ys ih =>
    rcases List.mem_cons.mp hx with h | h
    · subst h
      cases ys with
      | nil => exact ⟨[], [], by simp [joinSep]⟩
      | cons z zs =>
        refine ⟨[], (sep ++ joinSep sep (z :: zs)).data, ?_⟩
        simp [joinSep, String.data_append]
    · rcases ih h with ⟨pre, post, hsplit⟩
      cases ys with
      | nil => exact absurd h (List.not_mem_nil x)
      | cons z zs =>
        refine ⟨(y ++ sep).data ++ pre, post, ?_⟩
        simp [joinSep, String.data_append, hsplit]

/-- C2: in the git-mode apply step, when the detected addon names produce
a nonempty conflict list (destination has conflicting content and is not
among the project's tracked addon manifest paths): with
`replace_addon_conflicts = false` the step fails — for every deployment
behaviour — with exactly the aggregated message, which begins with the
fixed prefix `ADDON_CONFLICT:` and contains every conflicting name and
path, and the filesystem is handed to no further operation; with the flag
set, deployment runs on the filesystem from which every conflicting path
has first been removed. -/
theorem C2_addon_conflict_gate
    (deploy : Fs → Except String Fs) (entries : List InstallEntry)
    (wow_dir : String) (fs : Fs) (addon_names : List String)
    (hc : addon_install_conflicts entries wow_dir addon_names fs ≠ []) :
    (apply_one_git_deploy deploy entries wow_dir fs addon_names false
        = .error (format_addon_conflict_message
            (addon_install_conflicts entries wow_dir addon_names fs))
      ∧ (∃ rest : List Char,
          (format_addon_conflict_message
            (addon_install_conflicts entries wow_dir addon_names fs)).data
            = "ADDON_CONFLICT:".data ++ rest)
      ∧ (∀ nc ∈ addon_install_conflicts entries wow_dir addon_names fs,
          ∃ pre post : List Char,
            (format_addon_conflict_message
              (addon_install_conflicts entries wow_dir addon_names fs)).data
              = pre ++ (nc.1 ++ " (" ++ nc.2 ++ ")").data ++ post))
    ∧ (apply_one_git_deploy deploy entries wow_dir fs addon_names true
        = deploy ((addon_install_conflicts entries wow_dir addon_names fs).foldl
            (fun acc nc => remove_any_target acc nc.2) fs)
      ∧ ∀ nc ∈ addon_install_conflicts entries wow_dir addon_names fs,
          fsLookup ((addon_install_conflicts entries wow_dir addon_names fs).foldl
            (fun acc nc => remove_any_target acc nc.2) fs) nc.2 = none) := by
  have hne : (addon_install_conflicts entries wow_dir addon_names fs).isEmpty = false := by
    cases hl : addon_install_conflicts entries wow_dir addon_names fs with
    | nil => exact absurd hl hc
    | cons a l => rfl
  have hlit : ("ADDON_CONFLICT: Existing addon files were found for: ").data
      = ("ADDON_CONFLICT:").data ++ (" Existing addon files were found for: ").data := by
    decide
  refine ⟨⟨?_, ?_, ?_⟩, ?_, ?_⟩
  · simp [apply_one_git_deploy, apply_one_conflict_gate, hne]
  · refine ⟨(" Existing addon files were found for: ").data
      ++ (joinSep "; " ((addon_install_conflicts entries wow_dir addon_names fs).map
            (fun nc => nc.1 ++ " (" ++ nc.2 ++ ")"))).data
      ++ (". Confirm replacement to delete those folders and continue.").data, ?_⟩
    simp [format_addon_conflict_message, String.data_append, hlit, List.append_assoc]
  · intro nc hnc
    rcases joinSep_split "; "
        ((addon_install_conflicts entries wow_dir addon_names fs).map
          (fun nc => nc.1 ++ " (" ++ nc.2 ++ ")"))
        (nc.1 ++ " (" ++ nc.2 ++ ")")
        (List.mem_map_of_mem _ hnc) with ⟨pre, post, hsplit⟩
    refine ⟨("ADDON_CONFLICT: Existing addon files were found for: ").data ++ pre,
      post ++ (". Confirm replacement to delete those folders and continue.").data, ?_⟩
    simp [format_addon_conflict_message, String.data_append, hsplit, List.append_assoc]
  · simp [apply_one_git_deploy, apply_one_conflict_gate, hne]
  · exact fun nc hnc => fsLookup_foldl_remove_mem _ fs nc hnc

/-- C2 witness: one detected addon `"Foo"` whose destination
`/wow/Interface/AddOns/Foo` is a non-empty untracked directory: without
the flag the apply step returns the aggregated conflict error; with the
flag the (identity) deployment receives the filesystem with the
conflicting path removed. -/
theorem C2_addon_conflict_gate_witness :
    apply_one_git_deploy Except.ok [] "/wow"
      [("/wow/Interface/AddOns/Foo", FsNode.dirNonEmpty)] ["Foo"] false
      = .error (format_addon_conflict_message
          (addon_install_conflicts [] "/wow" ["Foo"]
            [("/wow/Interface/AddOns/Foo", FsNode.dirNonEmpty)]))
    ∧ apply_one_git_deploy Except.ok [] "/wow"
      [("/wow/Interface/AddOns/Foo", FsNode.dirNonEmpty)] ["Foo"] true
      = Except.ok ((addon_install_conflicts [] "/wow" ["Foo"]
            [("/wow/Interface/AddOns/Foo", FsNode.dirNonEmpty)]).foldl
          (fun acc nc => remove_any_target acc nc.2)
          [("/wow/Interface/AddOns/Foo", FsNode.dirNonEmpty)]) := by
  have h := C2_addon_conflict_gate Except.ok [] "/wow"
    [("/wow/Interface/AddOns/Foo", FsNode.dirNonEmpty)] ["Foo"] (by decide)
  exact ⟨h.1.1, h.2.1⟩

end Wuddle
